import Mathlib

/-!
Verification of the `bplus-searchrs` repository against its natural-language
specification. Rust strings are modelled as `List Char`; machine integers as
`Int`/`Nat` (with the 64-bit bound made explicit where overflow matters);
fallible operations return `Option`. Each Rust function the claims touch is
translated into an executable Lean definition, and reference definitions
written from the specification's wording are compared against them.
-/

namespace Bplus

/-- Rust `String` / `&str`, modelled as its character list. -/
abbrev Str := List Char

/-! ## JSON values (`serde_json::Value`)

Numbers are modelled as `Int` (covering the `i64`/`u64` cases; `to_string`
on an integer number renders its decimal representation, matching
`Int.repr`). Objects are association lists with distinct keys maintained by
`serde_json`; lookup takes the first binding. -/

inductive Json where
  | null
  | bool (b : Bool)
  | num (n : Int)
  | str (s : Str)
  | arr (xs : List Json)
  | obj (fields : List (Str × Json))

/-- `serde_json`'s `Index<&str>` on `&Value`: field lookup on an object,
`Value::Null` when the field is missing or the value is not an object. -/
def jsonField (j : Json) (k : Str) : Json :=
  match j with
  | Json.obj fields =>
    match fields.find? (fun f => f.1 = k) with
    | some f => f.2
    | none => Json.null
  | _ => Json.null

/-- Rust `str::parse::<usize>` (64-bit): optional leading `+`, then one or
more ASCII digits, rejecting empty input and values ≥ 2^64. -/
def parseUsize (s : Str) : Option Nat :=
  let digits := match s with
    | List.cons c rest => if c = '+' then rest else s
    | List.nil => s
  if digits.isEmpty then none
  else if digits.all (fun c => c.isDigit) then
    let n := digits.foldl (fun acc c => acc * 10 + (c.toNat - 48)) 0
    if n < 2 ^ 64 then some n else none
  else none

/-- Rust `str::split('.')` (as collected into a `Vec`): the empty string
yields one empty segment, and separators at the ends yield empty segments. -/
def splitOnDot : Str → List Str
  | List.nil => [[]]
  | List.cons c rest =>
    let ps := splitOnDot rest
    if c = '.' then [] :: ps
    else
      match ps with
      | List.cons p tail => (c :: p) :: tail
      | List.nil => [[c]]

/-- Terminal coercion in `GenericApiProvider::extract` (src/search.rs:60-65):
string to itself, number to decimal string, bool to `"true"`/`"false"`,
anything else to the empty string. -/
def coerceJson : Json → Str
  | Json.str s => s
  | Json.num n => (toString n).toList
  | Json.bool b => if b then "true".toList else "false".toList
  | _ => []

/-- The segment-resolution loop of `GenericApiProvider::extract`
(src/search.rs:50-58): a segment that parses as `usize` demands an array
(indexing it, out of range or non-array returning `""` at once); any other
segment is resolved with `serde_json` string indexing. -/
def extractLoop : List Str → Json → Str
  | List.nil, curr => coerceJson curr
  | List.cons part rest, curr =>
    match parseUsize part with
    | some idx =>
      match curr with
      | Json.arr xs => if idx < xs.length then extractLoop rest (xs.getD idx Json.null) else []
      | _ => []
    | none => extractLoop rest (jsonField curr part)

/-- `GenericApiProvider::extract` (src/search.rs:45-66). -/
def extract (val : Json) (path : Option Str) : Str :=
  match path with
  | some p => if p.isEmpty then [] else extractLoop (splitOnDot p) val
  | none => []

/-! ## Search results, deduplication and ranking (`perform_search`) -/

structure SearchResult where
  title : Str
  url : Str
  content : Str
  engine : Str
deriving DecidableEq

/-- First-occurrence filter keyed by `key`, with the already-seen keys
accumulated the way the Rust loops keep a `HashSet` (src/search.rs:192-199
keyed by `url`; src/search.rs:303-311 keyed by `conv_id`). -/
def firstOccLoop {α κ : Type} [DecidableEq κ] (key : α → κ) (seen : List κ) :
    List α → List α
  | List.nil => []
  | List.cons x xs =>
    if key x ∈ seen then firstOccLoop key seen xs
    else x :: firstOccLoop key (key x :: seen) xs

/-- The deduplication pass of `perform_search` (src/search.rs:192-199):
scan the concatenated results, keeping a result only when its `url` has not
been seen. -/
def dedupByUrl (all : List SearchResult) : List SearchResult :=
  firstOccLoop (fun r => r.url) [] all

/-- ASCII lowercasing, modelling Rust `str::to_lowercase` on the ASCII
fragment relevant here. -/
def lowerStr (s : Str) : Str := s.map Char.toLower

/-- `needle` occurs as a prefix of `hay` (character-exact). -/
def charsHasPfx : Str → Str → Bool
  | List.nil, _ => true
  | List.cons _ _, List.nil => false
  | List.cons n ns, List.cons h hs => n = h && charsHasPfx ns hs

/-- Rust `str::contains` for a string needle: contiguous substring test. -/
def charsContains (needle : Str) : Str → Bool
  | List.nil => needle.isEmpty
  | List.cons h hs => charsHasPfx needle (h :: hs) || charsContains needle hs

/-- The relevance predicate of `perform_search` (src/search.rs:204-205):
the lowercased title contains the lowercased query. -/
def titleMatches (qLow : Str) (r : SearchResult) : Bool :=
  charsContains qLow (lowerStr r.title)

/-- The 0/1 score used inside the comparator. -/
def matchScore (qLow : Str) (r : SearchResult) : Nat :=
  if titleMatches qLow r then 1 else 0

/-- The comparator passed to `sort_by` (src/search.rs:203-207):
`bscore.cmp(&ascore)`, so matching titles order strictly before
non-matching ones and equal scores compare equal. -/
def rankCmp (qLow : Str) (a b : SearchResult) : Ordering :=
  compare (matchScore qLow b) (matchScore qLow a)

/-- Stable insertion of `x` into a list sorted by `cmp`: `x` is placed
before the first element it does not compare `gt` against. -/
def insertBy {α : Type} (cmp : α → α → Ordering) (x : α) : List α → List α
  | List.nil => [x]
  | List.cons y ys =>
    match cmp x y with
    | Ordering.gt => y :: insertBy cmp x ys
    | _ => x :: y :: ys

/-- Stable sort by a comparator. Rust's `slice::sort_by` is documented as
stable, and a stable sort under a total preorder comparator is unique, so
this insertion sort is an exact model of src/search.rs:203-207. -/
def sortBy {α : Type} (cmp : α → α → Ordering) : List α → List α
  | List.nil => []
  | List.cons x xs => insertBy cmp x (sortBy cmp xs)

/-- The ranking step of `perform_search` (src/search.rs:201-207): stable
sort by the 0/1 relevance score of the lowercased-title/lowercased-query
substring test. -/
def rankResults (query : Str) (l : List SearchResult) : List SearchResult :=
  sortBy (rankCmp (lowerStr query)) l

/-! ## Provider configuration and dispatch (`perform_search`) -/

structure ProviderConfig where
  id : Int
  name : Str
  type_ : Str
  api_url : Option Str
  api_headers : Option Str
  result_path : Option Str
  title_path : Option Str
  url_path : Option Str
  content_path : Option Str
  is_enabled : Bool
deriving DecidableEq

/-- The synthetic default configuration substituted when no providers are
selected (src/search.rs:161-174). -/
def defaultLocalProvider : ProviderConfig where
  id := 0
  name := "Local Database".toList
  type_ := "native".toList
  api_url := some "native_local_db".toList
  api_headers := none
  result_path := none
  title_path := none
  url_path := none
  content_path := none
  is_enabled := true

/-- The provider list actually searched (src/search.rs:161-174). -/
def effectiveProviders (providers : List ProviderConfig) : List ProviderConfig :=
  if providers.isEmpty then [defaultLocalProvider] else providers

/-- The two provider implementations a configuration can select
(src/search.rs:177-184). -/
inductive ProviderImpl where
  | genericApi (config : ProviderConfig)
  | native (id : Str)
deriving DecidableEq

/-- Implementation selection in the `perform_search` loop
(src/search.rs:177-184): `type_ == "generic"` picks the generic API
provider, anything else wraps the `api_url` as a native id. -/
def selectImpl (p : ProviderConfig) : ProviderImpl :=
  if p.type_ = "generic".toList then ProviderImpl.genericApi p
  else ProviderImpl.native (p.api_url.getD [])

/-- The native search functions `NativeProvider::search` dispatches to
(src/search.rs:137-147). -/
inductive NativeFn where
  | localDb
  | ddg
  | qwant
  | mojeek
  | wiki
  | reddit
  | stack
  | searxng
  | noMatch
deriving DecidableEq

/-- The dispatch table of `NativeProvider::search` (src/search.rs:137-147). -/
def nativeRoute (id : Str) : NativeFn :=
  if id = "native_local_db".toList then NativeFn.localDb
  else if id = "native_ddg".toList then NativeFn.ddg
  else if id = "native_qwant".toList then NativeFn.qwant
  else if id = "native_mojeek".toList then NativeFn.mojeek
  else if id = "native_wiki".toList then NativeFn.wiki
  else if id = "native_reddit".toList then NativeFn.reddit
  else if id = "native_stack".toList then NativeFn.stack
  else if id = "native_searxng".toList then NativeFn.searxng
  else NativeFn.noMatch

/-- The pure pipeline of `perform_search` (src/search.rs:152-210), with the
network/database fetches abstracted as a function from the selected
implementation to its result list: substitute the default provider when
none are given, concatenate the per-provider lists in provider iteration
order, deduplicate by url, rank. -/
def performSearchPure (fetch : ProviderImpl → List SearchResult)
    (providers : List ProviderConfig) (query : Str) : List SearchResult :=
  let eff := effectiveProviders providers
  let all := (eff.map (fun p => fetch (selectImpl p))).flatten
  rankResults query (dedupByUrl all)

/-! ## Local archive diversity filter (`local_db_search`) -/

/-- The raw message hit of `local_db_search` (src/search.rs:267). -/
structure RawHit where
  id : Int
  conv_id : Int
  date : Str
deriving DecidableEq

/-- The diversity filter of `local_db_search` (src/search.rs:302-311):
scan the raw hits (already in recency order) and keep a hit only when its
conversation has not been seen. -/
def diversityFilter (raw_hits : List RawHit) : List RawHit :=
  firstOccLoop (fun h => h.conv_id) [] raw_hits

/-! ## Database layer (`DbManager`) -/

/-- One chat message as returned to the LLM layer (`llm::Message`). -/
structure Message where
  role : Str
  content : Str
deriving DecidableEq

/-- One row of the `messages` table. The table is modelled as a list in
`created_at ASC` order, so the `ORDER BY created_at ASC` selection is the
order-preserving filter on `conversation_id`. -/
structure MsgRow where
  conv_id : Int
  role : Str
  content : Str
  sources : Option Str
deriving DecidableEq

/-- The rows `get_history`'s query returns for a conversation, projected to
`{role, content}` (src/db.rs:123-128). -/
def historyRows (table : List MsgRow) (conv : Int) : List Message :=
  (table.filter (fun m => m.conv_id = conv)).map (fun m => ⟨m.role, m.content⟩)

/-- `DbManager::get_history` (src/db.rs:121-133): load the conversation's
messages oldest-first, then pop the last entry when its role is `user`. -/
def get_history (table : List MsgRow) (conv : Int) : List Message :=
  let history := historyRows table conv
  match history.getLast? with
  | some last => if last.role = "user".toList then history.dropLast else history
  | none => history

/-- `DbManager::get_providers` (src/db.rs:135-164): the SQL selects only
rows with `is_enabled = 1`; the loop then keeps a row when no id list was
given, or when its id is in the given list. -/
def get_providers (store : List ProviderConfig) (ids : Option (List Int)) :
    List ProviderConfig :=
  let enabled := store.filter (fun p => p.is_enabled)
  match ids with
  | some req_ids => enabled.filter (fun p => req_ids.contains p.id)
  | none => enabled

/-! ## Query handler (`handlers::handle_query`, src/main.rs:91-162)

The stream body is modelled as a pure function of: the JSON serializer for
the sources column (external library code, abstracted), the query text, the
list `perform_search` returned, the chunk sequence the LLM stream would
produce (`Ok` text or `Err` message), and the outcome of the final
`add_message` call (`none` models the write failing, whose id defaults to
0 via `unwrap_or(0)`). It returns the SSE events yielded in order, the
`add_message` writes performed in order, and whether `stream_completion`
was invoked. -/

inductive Event where
  | results (rs : List SearchResult)
  | summaryStart
  | summaryChunk (text : Str)
  | errorEvent (message : Str)
  | summaryDone (messageId : Int)
deriving DecidableEq

/-- One `add_message` call: role, content, sources. -/
structure DbWrite where
  role : Str
  content : Str
  sources : Option Str
deriving DecidableEq

/-- The fixed empty-results notice (src/main.rs:120-122). -/
def noticeText : Str := "No search results found to summarize.".toList

/-- The events the LLM chunk loop yields (src/main.rs:143-153). -/
def chunkEvents (chunks : List (Except Str Str)) : List Event :=
  chunks.map (fun c =>
    match c with
    | Except.ok text => Event.summaryChunk text
    | Except.error e => Event.errorEvent e)

/-- The accumulated `full_text` of the LLM chunk loop (src/main.rs:140-147):
`Ok` chunks are appended, `Err` chunks contribute nothing. -/
def fullText (chunks : List (Except Str Str)) : Str :=
  chunks.foldl (fun acc c =>
    match c with
    | Except.ok text => acc ++ text
    | Except.error _ => acc) []

/-- `handlers::handle_query` (src/main.rs:91-162) as a pure run function;
see the section comment for the abstracted inputs. -/
def handleQueryRun (serialize : List SearchResult → Str) (query : Str)
    (searchResults : List SearchResult) (llmChunks : List (Except Str Str))
    (assistantWrite : Option Int) : List Event × List DbWrite × Bool :=
  let userWrite : DbWrite := ⟨"user".toList, query, none⟩
  let sr := if searchResults.length > 15 then searchResults.take 15 else searchResults
  if sr.isEmpty then
    ([Event.results sr, Event.summaryChunk noticeText],
     [userWrite, ⟨"assistant".toList, noticeText, some "[]".toList⟩],
     false)
  else
    ([Event.results sr, Event.summaryStart] ++ chunkEvents llmChunks
       ++ [Event.summaryDone (assistantWrite.getD 0)],
     [userWrite, ⟨"assistant".toList, fullText llmChunks, some (serialize sr)⟩],
     true)

/-- Discriminator for `summary-chunk` events. -/
def isSummaryChunk : Event → Bool
  | Event.summaryChunk _ => true
  | _ => false

/-- Discriminator for `summary-done` events. -/
def isSummaryDone : Event → Bool
  | Event.summaryDone _ => true
  | _ => false

/-! ## Reference definitions written from the specification's wording -/

/-- Reference resolution loop exactly as the claim words it: "if the
segment parses as a non-negative integer and the current node is an array,
it indexes into it (out-of-range yields `\"\"`), otherwise the segment is
an object-field lookup whose missing-field case yields a null/absent
marker that resolution continues through". -/
def specResolveClaim : List Str → Json → Str
  | List.nil, curr => coerceJson curr
  | List.cons part rest, curr =>
    match parseUsize part, curr with
    | some idx, Json.arr xs =>
      if idx < xs.length then specResolveClaim rest (xs.getD idx Json.null) else []
    | _, _ => specResolveClaim rest (jsonField curr part)

/-- The claim's reference extractor: empty or absent path yields `""`,
split on `.`, resolve per `specResolveClaim`, coerce the terminal value. -/
def specExtractClaim (val : Json) (path : Option Str) : Str :=
  match path with
  | some p => if p.isEmpty then [] else specResolveClaim (splitOnDot p) val
  | none => []

/-- Amended reference resolution: an integer segment demands an array — on
an array it indexes (out-of-range yields `""`), on a non-array node it
yields `""` immediately; only a segment that does not parse as an integer
is an object-field lookup (missing field yields the null marker that
resolution continues through). -/
def specResolveAmended : List Str → Json → Str
  | List.nil, curr => coerceJson curr
  | List.cons part rest, curr =>
    match parseUsize part, curr with
    | some idx, Json.arr xs =>
      if idx < xs.length then specResolveAmended rest (xs.getD idx Json.null) else []
    | some _, _ => []
    | none, _ => specResolveAmended rest (jsonField curr part)

/-- The amended reference extractor. -/
def specExtractAmended (val : Json) (path : Option Str) : Str :=
  match path with
  | some p => if p.isEmpty then [] else specResolveAmended (splitOnDot p) val
  | none => []

/-- Reference first-occurrence-per-key filter, written from the spec's
wording ("deduplicate ..., keeping the first occurrence encountered"):
keep the head and drop every later element sharing its key. -/
def specFirstByKey {α κ : Type} [DecidableEq κ] (key : α → κ) : List α → List α
  | List.nil => []
  | List.cons x xs =>
    x :: specFirstByKey key (xs.filter (fun y => key y ≠ key x))
termination_by l => l.length
decreasing_by
  simp only [List.length_cons]
  exact Nat.lt_succ_of_le (List.length_filter_le _ _)

/-- Reference history loader, written from the spec's wording: take the
conversation's messages oldest-first and drop a trailing `user` entry when
the last stored message is from the user. -/
def specLoadHistory (table : List MsgRow) (conv : Int) : List Message :=
  let msgs := historyRows table conv
  match msgs.reverse with
  | List.nil => []
  | List.cons last restRev =>
    if last.role = "user".toList then restRev.reverse else msgs

/-- Reference provider listing exactly as the claim words it: with
`selected_ids` given, the stored providers filtered to that id subset;
otherwise the enabled providers. -/
def specListClaim (store : List ProviderConfig) (ids : Option (List Int)) :
    List ProviderConfig :=
  match ids with
  | some req_ids => store.filter (fun p => req_ids.contains p.id)
  | none => store.filter (fun p => p.is_enabled)

/-- Amended reference provider listing: the enabled-only restriction
applies in both cases; with `selected_ids` given, the enabled providers
are further filtered to that id subset. -/
def specListAmended (store : List ProviderConfig) (ids : Option (List Int)) :
    List ProviderConfig :=
  match ids with
  | some req_ids => (store.filter (fun p => p.is_enabled)).filter
      (fun p => req_ids.contains p.id)
  | none => store.filter (fun p => p.is_enabled)

/-- A stored provider that is disabled, used to separate the claim's
reference from the code. -/
def disabledDemoProvider : ProviderConfig where
  id := 1
  name := "X".toList
  type_ := "generic".toList
  api_url := none
  api_headers := none
  result_path := none
  title_path := none
  url_path := none
  content_path := none
  is_enabled := false

/-! ## Lemmas about the first-occurrence loops -/

theorem filter_unseen_cons_split {α κ : Type} [DecidableEq κ] (key : α → κ)
    (k : κ) (seen : List κ) :
    (xs : List α) →
      (xs.filter (fun y => decide (key y ∉ seen))).filter (fun y => decide (key y ≠ k))
        = xs.filter (fun y => decide (key y ∉ k :: seen))
  | List.nil => rfl
  | List.cons y ys => by
    have IH := filter_unseen_cons_split key k seen ys
    by_cases h1 : key y ∈ seen
    · simp [List.filter_cons, List.mem_cons, h1, IH]
    · by_cases h2 : key y = k
      · subst h2
        simp [List.filter_cons, List.mem_cons, h1, IH]
      · simp [List.filter_cons, List.mem_cons, h1, h2, IH]

theorem firstOccLoop_eq_spec {α κ : Type} [DecidableEq κ] (key : α → κ) :
    (l : List α) → (seen : List κ) →
      firstOccLoop key seen l
        = specFirstByKey key (l.filter (fun x => decide (key x ∉ seen)))
  | List.nil, _ => by simp [firstOccLoop, specFirstByKey]
  | List.cons x xs, seen => by
    by_cases h : key x ∈ seen
    · rw [firstOccLoop, if_pos h, firstOccLoop_eq_spec key xs seen]
      simp [List.filter_cons, h]
    · rw [firstOccLoop, if_neg h, firstOccLoop_eq_spec key xs (key x :: seen)]
      have hcond : (fun y => decide (key y ∉ seen)) x = true := by simp [h]
      rw [List.filter_cons, if_pos hcond, specFirstByKey,
        filter_unseen_cons_split key (key x) seen xs]

theorem firstOcc_eq_spec {α κ : Type} [DecidableEq κ] (key : α → κ) (l : List α) :
    firstOccLoop key [] l = specFirstByKey key l := by
  rw [firstOccLoop_eq_spec key l []]
  congr 1
  simp

theorem specFirstByKey_sublist {α κ : Type} [DecidableEq κ] (key : α → κ) :
    (l : List α) → List.Sublist (specFirstByKey key l) l
  | List.nil => by simp [specFirstByKey]
  | List.cons x xs => by
    rw [specFirstByKey]
    exact List.Sublist.cons₂ x
      ((specFirstByKey_sublist key _).trans (List.filter_sublist xs))
termination_by l => l.length
decreasing_by
  simp only [List.length_cons]
  exact Nat.lt_succ_of_le (List.length_filter_le _ _)

theorem specFirstByKey_keys_nodup {α κ : Type} [DecidableEq κ] (key : α → κ) :
    (l : List α) → ((specFirstByKey key l).map key).Nodup
  | List.nil => by simp [specFirstByKey]
  | List.cons x xs => by
    rw [specFirstByKey]
    simp only [List.map_cons, List.nodup_cons]
    refine ⟨?_, specFirstByKey_keys_nodup key _⟩
    intro hmem
    obtain ⟨y, hy, hkey⟩ := List.mem_map.mp hmem
    have hyf := (specFirstByKey_sublist key _).subset hy
    have := (List.mem_filter.mp hyf).2
    simp only [decide_eq_true_eq] at this
    exact this hkey
termination_by l => l.length
decreasing_by
  simp only [List.length_cons]
  exact Nat.lt_succ_of_le (List.length_filter_le _ _)

theorem specFirstByKey_covers {α κ : Type} [DecidableEq κ] (key : α → κ) :
    (l : List α) → ∀ x ∈ l, key x ∈ (specFirstByKey key l).map key
  | List.nil => by simp
  | List.cons z xs => by
    rw [specFirstByKey]
    intro x hx
    rcases List.mem_cons.mp hx with h | h
    · simp [h]
    · by_cases hk : key x = key z
      · simp [hk]
      · have hxf : x ∈ xs.filter (fun y => decide (key y ≠ key z)) :=
          List.mem_filter.mpr ⟨h, by simp [hk]⟩
        have := specFirstByKey_covers key _ x hxf
        simp only [List.map_cons, List.mem_cons]
        exact Or.inr this
termination_by l => l.length
decreasing_by
  simp only [List.length_cons]
  exact Nat.lt_succ_of_le (List.length_filter_le _ _)

/-! ## Lemmas about the ranking comparator -/

theorem matchScore_le_one (qLow : Str) (r : SearchResult) : matchScore qLow r ≤ 1 := by
  unfold matchScore
  split <;> simp

theorem insertBy_rank_match (qLow : Str) (x : SearchResult)
    (hx : titleMatches qLow x = true) :
    (L : List SearchResult) → insertBy (rankCmp qLow) x L = x :: L
  | List.nil => rfl
  | List.cons y ys => by
    have hnot : rankCmp qLow x y ≠ Ordering.gt := by
      unfold rankCmp
      have hx1 : matchScore qLow x = 1 := by simp [matchScore, hx]
      rw [hx1]
      intro hgt
      rw [Nat.compare_eq_gt] at hgt
      exact absurd hgt (Nat.not_lt.mpr (matchScore_le_one qLow y))
    rw [insertBy]
    rcases hc : rankCmp qLow x y with _ | _ | _
    · rfl
    · rfl
    · exact absurd hc hnot

theorem insertBy_rank_nomatch (qLow : Str) (x : SearchResult)
    (hx : titleMatches qLow x = false) :
    (A : List SearchResult) → ∀ (B : List SearchResult),
      (∀ y ∈ A, titleMatches qLow y = true) →
      (∀ y ∈ B, titleMatches qLow y = false) →
      insertBy (rankCmp qLow) x (A ++ B) = A ++ x :: B
  | List.nil, B, _, hB => by
    cases B with
    | nil => rfl
    | cons b bs =>
      have hbc : rankCmp qLow x b = Ordering.eq := by
        unfold rankCmp
        have h0 : matchScore qLow x = 0 := by simp [matchScore, hx]
        have hb0 : matchScore qLow b = 0 := by
          simp [matchScore, hB b (List.mem_cons_self b bs)]
        rw [h0, hb0]
        decide
      rw [List.nil_append, insertBy, hbc]
      rfl
  | List.cons a A, B, hA, hB => by
    have hac : rankCmp qLow x a = Ordering.gt := by
      unfold rankCmp
      have h0 : matchScore qLow x = 0 := by simp [matchScore, hx]
      have ha1 : matchScore qLow a = 1 := by
        simp [matchScore, hA a (List.mem_cons_self a A)]
      rw [h0, ha1]
      decide
    rw [List.cons_append, insertBy, hac,
      insertBy_rank_nomatch qLow x hx A B (fun y hy => hA y (List.mem_cons_of_mem a hy)) hB]
    rfl

theorem sortBy_rank_partition (qLow : Str) :
    (l : List SearchResult) →
      sortBy (rankCmp qLow) l
        = l.filter (titleMatches qLow) ++ l.filter (fun r => !titleMatches qLow r)
  | List.nil => rfl
  | List.cons x xs => by
    rw [sortBy, sortBy_rank_partition qLow xs]
    cases hx : titleMatches qLow x with
    | true =>
      rw [insertBy_rank_match qLow x hx]
      simp [List.filter_cons, hx]
    | false =>
      rw [insertBy_rank_nomatch qLow x hx
        (xs.filter (titleMatches qLow)) (xs.filter (fun r => !titleMatches qLow r))
        (fun y hy => (List.mem_filter.mp hy).2)
        (fun y hy => by
          have := (List.mem_filter.mp hy).2
          simpa using this)]
      simp [List.filter_cons, hx]

/-- Truncating to at most 15 results does not change emptiness. -/
theorem trunc15_isEmpty (l : List SearchResult) :
    (if l.length > 15 then l.take 15 else l).isEmpty = l.isEmpty := by
  split
  · rename_i h
    cases l with
    | nil => simp at h
    | cons a as => simp [List.take_succ_cons]
  · rfl

/-! ## Claim theorems -/

/-- C1 (counterexample): `extract` does not equal the claim's reference
definition. On the object `{"0": "x"}` with path `"0"`, the segment parses
as an integer while the node is not an array: the code returns `""` at
once, whereas the claim's "otherwise object-field lookup" reading returns
`"x"`. -/
theorem extract_claim_counterexample :
    extract (Json.obj [("0".toList, Json.str "x".toList)]) (some "0".toList)
        ≠ specExtractClaim (Json.obj [("0".toList, Json.str "x".toList)])
            (some "0".toList) ∧
    extract (Json.obj [("0".toList, Json.str "x".toList)]) (some "0".toList) = [] ∧
    specExtractClaim (Json.obj [("0".toList, Json.str "x".toList)])
        (some "0".toList) = "x".toList := by
  refine ⟨?_, rfl, rfl⟩
  decide

theorem extractLoop_eq_amended :
    (parts : List Str) → (curr : Json) →
      extractLoop parts curr = specResolveAmended parts curr
  | List.nil, _ => rfl
  | List.cons part rest, curr => by
    rcases hp : parseUsize part with _ | idx
    · cases curr <;>
        simp [extractLoop, specResolveAmended, hp, extractLoop_eq_amended rest]
    · cases curr <;>
        simp [extractLoop, specResolveAmended, hp, extractLoop_eq_amended rest]

/-- C1 (amended): `extract` equals the amended reference definition, in
which a segment that parses as a non-negative integer requires the current
node to be an array (indexing it, out-of-range and non-array both yielding
`""`), and only a non-integer segment is an object-field lookup whose
missing-field marker resolution continues through; an empty or absent path
yields `""`, the terminal value is coerced string/number/bool, anything
else to `""`, and `extract` is total. -/
theorem extract_eq_amended_reference (v : Json) (p : Option Str) :
    extract v p = specExtractAmended v p := by
  cases p with
  | none => rfl
  | some s =>
    have hl : extract v (some s)
        = if s.isEmpty then ([] : Str) else extractLoop (splitOnDot s) v := rfl
    have hr : specExtractAmended v (some s)
        = if s.isEmpty then ([] : Str) else specResolveAmended (splitOnDot s) v := rfl
    rw [hl, hr]
    by_cases h : s.isEmpty
    · rw [if_pos h, if_pos h]
    · rw [if_neg h, if_neg h, extractLoop_eq_amended]

/-- C2: merging the per-provider result lists in provider iteration order
and deduplicating keeps exactly one result per distinct url, namely the
first occurrence in the concatenation: the dedup pass equals the
first-occurrence reference, its url projection has no duplicates, it is an
order-preserving sublist, and every input url is still represented. -/
theorem perform_search_dedup_first_occurrence
    (perProvider : List (List SearchResult)) :
    dedupByUrl perProvider.flatten
        = specFirstByKey (fun r => r.url) perProvider.flatten ∧
    ((dedupByUrl perProvider.flatten).map (fun r => r.url)).Nodup ∧
    List.Sublist (dedupByUrl perProvider.flatten) perProvider.flatten ∧
    ∀ r ∈ perProvider.flatten,
      r.url ∈ (dedupByUrl perProvider.flatten).map (fun r => r.url) := by
  have he : dedupByUrl perProvider.flatten
      = specFirstByKey (fun r => r.url) perProvider.flatten :=
    firstOcc_eq_spec (fun r : SearchResult => r.url) perProvider.flatten
  refine ⟨he, ?_, ?_, ?_⟩
  · rw [he]
    exact specFirstByKey_keys_nodup _ _
  · rw [he]
    exact specFirstByKey_sublist _ _
  · intro r hr
    rw [he]
    exact specFirstByKey_covers _ _ r hr

/-- C3: the ranking step is a stable partition: results whose lowercased
title contains the lowercased query precede all others, each group keeping
its input order, and nothing else is reordered — the sort equals the
matching prefix followed by the non-matching suffix. -/
theorem perform_search_rank_stable_partition (query : Str) (l : List SearchResult) :
    rankResults query l
      = l.filter (titleMatches (lowerStr query))
          ++ l.filter (fun r => !titleMatches (lowerStr query) r) :=
  sortBy_rank_partition (lowerStr query) l

/-- C4: the local-archive diversity filter keeps at most one hit per
conversation — the first-seen one — and preserves the relative order of
the survivors: it equals the first-occurrence reference, its conversation
ids are pairwise distinct, it is an order-preserving sublist, and every
conversation with a raw hit keeps a representative. -/
theorem local_diversity_one_hit_per_conversation (raw_hits : List RawHit) :
    diversityFilter raw_hits
        = specFirstByKey (fun h => h.conv_id) raw_hits ∧
    ((diversityFilter raw_hits).map (fun h => h.conv_id)).Nodup ∧
    List.Sublist (diversityFilter raw_hits) raw_hits ∧
    ∀ h ∈ raw_hits,
      h.conv_id ∈ (diversityFilter raw_hits).map (fun h => h.conv_id) := by
  have he : diversityFilter raw_hits
      = specFirstByKey (fun h => h.conv_id) raw_hits :=
    firstOcc_eq_spec (fun h : RawHit => h.conv_id) raw_hits
  refine ⟨he, ?_, ?_, ?_⟩
  · rw [he]
    exact specFirstByKey_keys_nodup _ _
  · rw [he]
    exact specFirstByKey_sublist _ _
  · intro h hh
    rw [he]
    exact specFirstByKey_covers _ _ h hh

/-- C5: when the search returns no results, the handler emits exactly the
`results` event and one `summary-chunk` event carrying the fixed notice,
persists the user message and an assistant message whose sources field is
`"[]"`, and never invokes the streaming LLM backend. -/
theorem handle_query_empty_results_path (serialize : List SearchResult → Str)
    (query : Str) (llmChunks : List (Except Str Str)) (assistantWrite : Option Int) :
    handleQueryRun serialize query [] llmChunks assistantWrite
      = ([Event.results [], Event.summaryChunk noticeText],
         [⟨"user".toList, query, none⟩,
          ⟨"assistant".toList, noticeText, some "[]".toList⟩],
         false) ∧
    (handleQueryRun serialize query [] llmChunks assistantWrite).1.countP
        isSummaryChunk = 1 := by
  exact ⟨rfl, rfl⟩

/-- C6 (counterexample): on the empty-results path the event sequence ends
with the `summary-chunk` notice and not with a `summary-done` event, even
when an assistant-message identifier would be available, so the claim that
both paths end with `summary-done` is false. -/
theorem handle_query_empty_path_no_summary_done :
    (handleQueryRun (fun _ => []) [] [] [] (some 5)).1.getLast?
        = some (Event.summaryChunk noticeText) ∧
    isSummaryDone (Event.summaryChunk noticeText) = false := by
  exact ⟨rfl, rfl⟩

/-- C6 (amended): every run's event sequence begins with a `results`
event; on the streaming path it ends with `summary-done` carrying the
persisted assistant-message identifier (0 when the final write fails),
while on the empty-results path it ends with the single `summary-chunk`
notice and no `summary-done` is emitted. -/
theorem handle_query_event_bracketing (serialize : List SearchResult → Str)
    (query : Str) (searchResults : List SearchResult)
    (llmChunks : List (Except Str Str)) (assistantWrite : Option Int) :
    (∃ rs, (handleQueryRun serialize query searchResults llmChunks
        assistantWrite).1.head? = some (Event.results rs)) ∧
    (if searchResults.isEmpty then
        (handleQueryRun serialize query searchResults llmChunks
            assistantWrite).1.getLast? = some (Event.summaryChunk noticeText)
      else
        (handleQueryRun serialize query searchResults llmChunks
            assistantWrite).1.getLast?
          = some (Event.summaryDone (assistantWrite.getD 0))) := by
  by_cases hE : searchResults.isEmpty
  · have hnil : searchResults = [] := by simpa using hE
    subst hnil
    refine ⟨⟨[], rfl⟩, ?_⟩
    rw [if_pos hE]
    rfl
  · have hne : ¬((if searchResults.length > 15 then searchResults.take 15
        else searchResults).isEmpty = true) := by
      rw [trunc15_isEmpty]
      exact hE
    constructor
    · refine ⟨if searchResults.length > 15 then searchResults.take 15
        else searchResults, ?_⟩
      simp only [handleQueryRun]
      rw [if_neg hne]
      rfl
    · rw [if_neg hE]
      simp only [handleQueryRun]
      rw [if_neg hne]
      exact List.getLast?_concat _

/-- C7: `get_history` returns the conversation's stored messages
oldest-first as role/content pairs and drops a trailing `user` entry when
the last stored message is from the user: it equals the reference loader
written from the specification. -/
theorem get_history_matches_spec_load_history (table : List MsgRow) (conv : Int) :
    get_history table conv = specLoadHistory table conv := by
  unfold get_history specLoadHistory
  induction historyRows table conv using List.reverseRecOn with
  | nil => rfl
  | append_singleton l a _ =>
    simp only [List.getLast?_concat, List.reverse_append, List.reverse_cons,
      List.reverse_nil, List.nil_append, List.singleton_append]
    by_cases hrole : a.role = "user".toList
    · simp [hrole, List.dropLast_concat]
    · simp [hrole]

/-- C8: with no providers selected, `perform_search` substitutes exactly
one synthetic default configuration, that configuration selects the native
local-archive adapter (`native_local_db` routes to `local_db_search`), and
the whole pipeline then runs on the local archive's results alone. -/
theorem empty_providers_default_to_local_archive :
    effectiveProviders [] = [defaultLocalProvider] ∧
    selectImpl defaultLocalProvider
        = ProviderImpl.native "native_local_db".toList ∧
    nativeRoute "native_local_db".toList = NativeFn.localDb ∧
    ∀ (fetch : ProviderImpl → List SearchResult) (query : Str),
      performSearchPure fetch [] query
        = rankResults query
            (dedupByUrl (fetch (ProviderImpl.native "native_local_db".toList))) := by
  have hsel : selectImpl defaultLocalProvider
      = ProviderImpl.native "native_local_db".toList := by decide
  refine ⟨rfl, hsel, by decide, ?_⟩
  intro fetch query
  simp [performSearchPure, effectiveProviders, hsel]

/-- C9 (counterexample): `get_providers` with an id list does not return
the stored providers filtered to that subset: a disabled provider whose id
is selected is returned by the claim's reference but not by the code,
because the SQL restricts to enabled rows in both modes. -/
theorem get_providers_claim_counterexample :
    get_providers [disabledDemoProvider] (some [1])
        ≠ specListClaim [disabledDemoProvider] (some [1]) ∧
    get_providers [disabledDemoProvider] (some [1]) = [] ∧
    specListClaim [disabledDemoProvider] (some [1]) = [disabledDemoProvider] := by
  refine ⟨?_, rfl, rfl⟩
  decide

/-- C9 (amended): `get_providers` returns the enabled providers, further
filtered to the given id subset when `selected_ids` is present: it equals
the amended reference listing. -/
theorem get_providers_eq_amended_reference (store : List ProviderConfig)
    (ids : Option (List Int)) :
    get_providers store ids = specListAmended store ids := by
  cases ids <;> rfl

/-- C10: when the conversation's projected history ends with two
consecutive `user` messages, `get_history` removes only the single last
entry: the earlier trailing user message (and everything before it)
remains. -/
theorem get_history_single_pop (table : List MsgRow) (conv : Int)
    (pre : List Message) (u1 u2 : Message)
    (hrows : historyRows table conv = pre ++ [u1, u2])
    (h1 : u1.role = "user".toList) (h2 : u2.role = "user".toList) :
    get_history table conv = pre ++ [u1] := by
  have hcat : pre ++ [u1, u2] = (pre ++ [u1]) ++ [u2] := by simp
  have hgl : (historyRows table conv).getLast? = some u2 := by
    rw [hrows, hcat, List.getLast?_concat]
  have hdl : (historyRows table conv).dropLast = pre ++ [u1] := by
    rw [hrows, hcat]
    exact List.dropLast_concat
  simp [get_history, hgl, hdl, h2]

/-- C10 (witness): on a table holding two consecutive `user` messages in
conversation 1, `get_history` returns only the first of them. -/
theorem get_history_single_pop_witness :
    historyRows [⟨1, "user".toList, "a".toList, none⟩,
        ⟨1, "user".toList, "b".toList, none⟩] 1
      = [] ++ [⟨"user".toList, "a".toList⟩, ⟨"user".toList, "b".toList⟩] ∧
    get_history [⟨1, "user".toList, "a".toList, none⟩,
        ⟨1, "user".toList, "b".toList, none⟩] 1
      = [] ++ [⟨"user".toList, "a".toList⟩] :=
  ⟨by decide,
    get_history_single_pop _ 1 [] ⟨"user".toList, "a".toList⟩
      ⟨"user".toList, "b".toList⟩ (by decide) (by decide) (by decide)⟩

end Bplus
